import Mathlib

/-!
Verification of the semantic component alignment and hierarchy engine
(backend/app/services/formulaTranslation.py and backend/app/api/parse_utils.py).

Strings are modelled as `List Char`; Python `str.find`, slicing, `in`
(substring), `strip` and the two regular expressions used by the code are
given explicit executable definitions.
-/

namespace Fivify

/-- Strings of the Python program, modelled as lists of characters. -/
abbrev Str := List Char

/-- The character `{` (written via its code point). -/
def lbrace : Char := Char.ofNat 123

/-- The character `}` (written via its code point). -/
def rbrace : Char := Char.ofNat 125

/-- Python slicing `s[a:b]` for `0 ≤ a ≤ b` (as produced by the engine). -/
def slice (s : Str) (a b : ℕ) : Str := (s.drop a).take (b - a)

/-- Scan candidate start positions `i, i+1, ...` (at most `m` of them) and
return the first position where `n` occurs in `h`.  Helper for `strFind`,
modelling the scan performed by Python `str.find`. -/
def strFindAux (h n : Str) : ℕ → ℕ → Option ℕ
  | 0, _ => none
  | m + 1, i => if n.isPrefixOf (h.drop i) then some i else strFindAux h n m (i + 1)

/-- Python `h.find(n)`: index of the first occurrence of `n` in `h`
(`none` models the `-1` failure value).  Candidate positions are
`0 .. h.length - n.length`. -/
def strFind (h n : Str) : Option ℕ :=
  strFindAux h n (h.length - n.length + 1) 0

/-- A character that may appear in a LaTeX command name after the backslash:
the regex character class `[a-zA-Z@]` of `_COMMAND_RE`. -/
def isCmdChar (c : Char) : Bool :=
  ('a' ≤ c && c ≤ 'z') || ('A' ≤ c && c ≤ 'Z') || c == '@'

/-- Position `i` of `latex` lies inside a match of `_COMMAND_RE`
(`\\[a-zA-Z@]+`): there is a backslash at `b ≤ i`, a command character
right after it, and every position in `(b, i]` is a command character.
Since a match of this pattern contains no interior backslash, the
non-overlapping leftmost matches of `re.finditer` are exactly the runs
starting at such `b`, so this predicate is "inside some match". -/
def maskAtB (latex : Str) (i : ℕ) : Bool :=
  (List.range (i + 1)).any (fun b =>
    (latex.get? b == some '\\') &&
    (match latex.get? (b + 1) with
     | some c => isCmdChar c
     | none => false) &&
    ((List.range' (b + 1) (i - b)).all (fun k =>
      match latex.get? k with
      | some c => isCmdChar c
      | none => false)))

/-- Model of `_build_command_mask`: a boolean mask where `true` means the
position is inside a LaTeX command name. -/
def buildCommandMask (latex : Str) : List Bool :=
  (List.range latex.length).map (fun i => maskAtB latex i)

/-- Python `any(command_mask[a:b])`. -/
def maskAny (mask : List Bool) (a b : ℕ) : Bool :=
  ((mask.drop a).take (b - a)).any id

/-- The `while` loop of `_find_symbol_in_latex`.  The fuel argument only
bounds the number of iterations; it is initialised to `latex.length + 1`,
which the loop can never exhaust because `start` strictly increases and the
guard `start <= len(latex) - len(symbol)` (Python integer arithmetic,
modelled over `ℤ`) fails once `start` exceeds `latex.length`. -/
def findSymAux (symbol latex : Str) (mask : List Bool) : ℕ → ℕ → Option ℕ
  | 0, _ => none
  | fuel + 1, start =>
    if (start : ℤ) ≤ (latex.length : ℤ) - (symbol.length : ℤ) then
      match strFindAux latex symbol (latex.length - symbol.length + 1 - start) start with
      | none => none
      | some pos =>
        if maskAny mask pos (pos + symbol.length) then
          findSymAux symbol latex mask fuel (pos + 1)
        else some pos
    else none

/-- Model of `_find_symbol_in_latex`: find `symbol` in `latex`, skipping
matches that overlap LaTeX command interiors; symbols containing a
backslash bypass the mask entirely. -/
def findSymbolInLatex (symbol latex : Str) (mask : List Bool) : Option ℕ :=
  if symbol.contains '\\' then strFind latex symbol
  else findSymAux symbol latex mask (latex.length + 1) 0

/-- Model of the pydantic `ComponentBreakdown`: a list of symbol strings, a
counterpart phrase and a role (the unused `children` input field is
omitted; the engine never reads it). -/
structure ComponentBreakdown where
  symbol : List Str
  counterpart : Str
  role : Str
deriving DecidableEq

/-- The dictionary returned by `assignIndices` on success. -/
structure AssignResult where
  narrative_span : ℕ × ℕ
  ranges : List (ℕ × ℕ)
  latex_parts : List Str
deriving DecidableEq

/-- Model of `assignIndices`: locate the counterpart in the explanation and
each symbol in the latex string; `none` models the `None` drop. The
symbol loop is modelled by a `filterMap` producing the (range, substring)
pairs in order; `ranges`/`latex_parts` are its two projections. -/
def assignIndices (component : ComponentBreakdown) (latex explanation : Str)
    (command_mask : List Bool) : Option AssignResult :=
  match strFind explanation component.counterpart with
  | none => none
  | some startIndex =>
    let endIndex := startIndex + component.counterpart.length
    let pairs : List ((ℕ × ℕ) × Str) :=
      component.symbol.filterMap (fun sym =>
        match findSymbolInLatex sym latex command_mask with
        | none => none
        | some texStart =>
          some ((texStart, texStart + sym.length), slice latex texStart (texStart + sym.length)))
    if pairs = [] then none
    else some ⟨(startIndex, endIndex), pairs.map Prod.fst, pairs.map Prod.snd⟩

/-- Model of `MacroGroup`. -/
structure MacroGroup where
  ranges : List (ℕ × ℕ)
  latex : List Str
  label : Str
  narrative_span : ℕ × ℕ
  children : List ℕ := []
deriving DecidableEq

/-- Model of `MacroMap`. -/
structure MacroMap where
  groups : List MacroGroup
  narrative : Str
deriving DecidableEq

/-- Model of `TestParseResponse`. -/
structure TestParseResponse where
  latex : Str
  explanation : Str
  components : List ComponentBreakdown
deriving DecidableEq

/-- Model of `_range_contains`: `parent` strictly contains `child`.  The
length comparison is done over `ℤ`, matching Python integer subtraction. -/
def rangeContains (parent child : ℕ × ℕ) : Bool :=
  decide (parent.1 ≤ child.1) && decide (child.2 ≤ parent.2) &&
    decide ((parent.2 : ℤ) - (parent.1 : ℤ) > (child.2 : ℤ) - (child.1 : ℤ))

/-- The ranges of `groups[i]` (empty when `i` is out of bounds). -/
def rangesAt (groups : List MacroGroup) (i : ℕ) : List (ℕ × ℕ) :=
  match groups.get? i with
  | some g => g.ranges
  | none => []

/-- `j ∈ contains[i]` in `_compute_children`: some range of `j` is strictly
contained in some range of `i` (and `j ≠ i`). -/
def containsPred (groups : List MacroGroup) (i j : ℕ) : Bool :=
  (j != i) && (rangesAt groups i).any (fun pr =>
    (rangesAt groups j).any (fun cr => rangeContains pr cr))

/-- The set `contains[i]` of `_compute_children`, as the ascending list of
its members (Python stores a `set` of indices drawn from `range(n)`). -/
def containsList (groups : List MacroGroup) (i : ℕ) : List ℕ :=
  (List.range groups.length).filter (fun j => containsPred groups i j)

/-- `sorted(direct)` for group `i`: `contains[i]` minus every
`contains[child] ∩ contains[i]` for `child ∈ contains[i]`.  Filtering the
ascending `containsList` yields exactly the sorted set difference. -/
def childrenAt (groups : List MacroGroup) (i : ℕ) : List ℕ :=
  (containsList groups i).filter (fun j =>
    ! (containsList groups i).any (fun c => (containsList groups c).contains j))

/-- Model of `_compute_children`: return the groups with their `children`
fields set (the Python code mutates the list in place; `ranges` are read
from the unmodified input throughout). -/
def computeChildren (groups : List MacroGroup) : List MacroGroup :=
  groups.enum.map (fun p => { p.2 with children := childrenAt groups p.1 })

/-- Model of `convertParseResponse`. -/
def convertParseResponse (response : TestParseResponse) : MacroMap :=
  let command_mask := buildCommandMask response.latex
  let groups := response.components.filterMap (fun component =>
    match assignIndices component response.latex response.explanation command_mask with
    | none => none
    | some indices =>
      some (MacroGroup.mk indices.ranges indices.latex_parts
        component.counterpart indices.narrative_span []))
  MacroMap.mk (computeChildren groups) response.explanation

/-! ### parse_utils.py -/

/-- A raw LLM component dictionary as consumed by
`merge_fragmented_components`: `comp.get("symbol", "")` is a single string
there, alongside the counterpart and role fields. -/
structure RawComp where
  symbol : Str
  counterpart : Str
  role : Str
deriving DecidableEq

/-- A character removed by Python `str.strip()` (ASCII whitespace). -/
def isPySpace (c : Char) : Bool :=
  c == ' ' || c == '\t' || c == '\n' || c == '\x0b' || c == '\x0c' || c == '\r'

/-- Python `s.strip()`. -/
def pyStrip (s : Str) : Str :=
  ((s.dropWhile isPySpace).reverse.dropWhile isPySpace).reverse

/-- The fixed `_SYNTACTIC_GLUE` set of bare operators. -/
def syntacticGlueList : List Str :=
  ["+".toList, "-".toList, "=".toList, "\\cdot".toList, "\\times".toList,
   "\\div".toList, "\\pm".toList, "\\mp".toList,
   "\\longleftarrow".toList, "\\leftarrow".toList, "\\rightarrow".toList,
   "\\longrightarrow".toList, "\\Longleftarrow".toList, "\\Rightarrow".toList,
   "\\Longrightarrow".toList, "\\approx".toList, "\\neq".toList, "\\leq".toList,
   "\\geq".toList, "\\equiv".toList, "\\sim".toList, "\\propto".toList]

/-- An ASCII letter or digit (the regex class `[a-zA-Z0-9]`). -/
def isAsciiAlphanum (c : Char) : Bool :=
  ('a' ≤ c && c ≤ 'z') || ('A' ≤ c && c ≤ 'Z') || ('0' ≤ c && c ≤ '9')

/-- The `_BARE_MODIFIER_RE` pattern: either a `^` or `_` followed by one
brace group free of inner braces, or a `^` or `_` followed by a single
letter or digit (both alternatives anchored at both ends). -/
def bareModifier (s : Str) : Bool :=
  match s with
  | [c, d] => (c == '^' || c == '_') && isAsciiAlphanum d
  | c :: b :: rest =>
    (c == '^' || c == '_') && (b == lbrace) &&
    (match rest.getLast? with
     | some e => e == rbrace
     | none => false) &&
    (rest.dropLast.all (fun x => x != lbrace && x != rbrace))
  | _ => false

/-- Model of `_is_syntactic_glue`. -/
def isSyntacticGlue (symbol : Str) : Bool :=
  syntacticGlueList.contains (pyStrip symbol) || bareModifier (pyStrip symbol)

/-- Python `needle in hay` for strings: substring containment. -/
def pyIn (needle hay : Str) : Bool := (strFind hay needle).isSome

/-- The component at index `i` is put into `glue_indices` by
`merge_fragmented_components`: it is syntactic glue and its stripped symbol
occurs as a substring of some other component's symbol string. -/
def glueDropped (comps : List RawComp) (i : ℕ) : Bool :=
  match comps.get? i with
  | none => false
  | some c =>
    isSyntacticGlue c.symbol &&
    (List.range comps.length).any (fun j =>
      (j != i) &&
      (match comps.get? j with
       | some d => pyIn (pyStrip c.symbol) d.symbol
       | none => false))

/-- The indices surviving the glue pass, in order. -/
def survivorIdx (comps : List RawComp) : List ℕ :=
  (List.range comps.length).filter (fun i => ! glueDropped comps i)

/-- Model of `merge_fragmented_components` (its `latex` parameter is unused
by the Python body, and kept here for the same signature). -/
def mergeFragmentedComponents (comps : List RawComp) (latex : Str) : List RawComp :=
  if comps.length < 2 then comps
  else (survivorIdx comps).filterMap (fun i => comps.get? i)

/-! ### Helper lemmas about the string-search primitives -/

theorem strFindAux_eq_some {h n : Str} (m : ℕ) :
    ∀ i p : ℕ, strFindAux h n m i = some p →
      i ≤ p ∧ p < i + m ∧ n.isPrefixOf (h.drop p) = true ∧
        ∀ q, i ≤ q → q < p → n.isPrefixOf (h.drop q) = false := by
  induction m with
  | zero => intro i p hfind; simp [strFindAux] at hfind
  | succ m ih =>
    intro i p hfind
    rw [strFindAux] at hfind
    by_cases hp : n.isPrefixOf (h.drop i) = true
    · rw [if_pos hp] at hfind
      obtain rfl : i = p := Option.some.inj hfind
      exact ⟨le_refl _, by omega, hp, fun q hq1 hq2 => by omega⟩
    · rw [if_neg hp] at hfind
      obtain ⟨h1, h2, h3, h4⟩ := ih (i + 1) p hfind
      refine ⟨by omega, by omega, h3, fun q hq1 hq2 => ?_⟩
      rcases Nat.eq_or_lt_of_le hq1 with heq | hlt
      · subst heq
        simp only [Bool.not_eq_true] at hp
        exact hp
      · exact h4 q hlt hq2

theorem strFind_eq_some {h n : Str} {p : ℕ} (hfind : strFind h n = some p) :
    n.isPrefixOf (h.drop p) = true ∧
      ∀ q, q < p → n.isPrefixOf (h.drop q) = false := by
  obtain ⟨_, _, h3, h4⟩ := strFindAux_eq_some _ 0 p hfind
  exact ⟨h3, fun q hq => h4 q (Nat.zero_le q) hq⟩

theorem slice_eq_of_isPrefixOf {h n : Str} {p : ℕ}
    (hp : n.isPrefixOf (h.drop p) = true) :
    slice h p (p + n.length) = n := by
  have hpre : n <+: h.drop p := List.isPrefixOf_iff_prefix.mp hp
  have htake : n = (h.drop p).take n.length := List.prefix_iff_eq_take.mp hpre
  simp [slice, Nat.add_sub_cancel_left, ← htake]

theorem strFind_slice {h n : Str} {p : ℕ} (hfind : strFind h n = some p) :
    slice h p (p + n.length) = n :=
  slice_eq_of_isPrefixOf (strFind_eq_some hfind).1

theorem strFind_nil (h : Str) : strFind h [] = some 0 := by
  simp [strFind, strFindAux, List.isPrefixOf]

theorem findSymAux_eq_some {symbol latex : Str} {mask : List Bool} (fuel : ℕ) :
    ∀ start p : ℕ, findSymAux symbol latex mask fuel start = some p →
      start ≤ p ∧ symbol.isPrefixOf (latex.drop p) = true ∧
        maskAny mask p (p + symbol.length) = false ∧
        ∀ q, start ≤ q → q < p → symbol.isPrefixOf (latex.drop q) = true →
          maskAny mask q (q + symbol.length) = true := by
  induction fuel with
  | zero => intro start p hfind; simp [findSymAux] at hfind
  | succ fuel ih =>
    intro start p hfind
    rw [findSymAux] at hfind
    by_cases hguard : (start : ℤ) ≤ (latex.length : ℤ) - (symbol.length : ℤ)
    · rw [if_pos hguard] at hfind
      cases hpos : strFindAux latex symbol (latex.length - symbol.length + 1 - start) start with
      | none => rw [hpos] at hfind; simp at hfind
      | some pos =>
        rw [hpos] at hfind
        dsimp only at hfind
        obtain ⟨hp1, _, hp3, hp4⟩ := strFindAux_eq_some _ start pos hpos
        by_cases hmask : maskAny mask pos (pos + symbol.length) = true
        · rw [if_pos hmask] at hfind
          obtain ⟨g1, g2, g3, g4⟩ := ih (pos + 1) p hfind
          refine ⟨by omega, g2, g3, fun q hq1 hq2 hq3 => ?_⟩
          by_cases hqpos : q < pos
          · exact absurd hq3 (by simp [hp4 q hq1 hqpos])
          · rcases Nat.eq_or_lt_of_le (Nat.le_of_not_lt hqpos) with heq | hlt
            · subst heq; exact hmask
            · exact g4 q hlt hq2 hq3
        · rw [if_neg hmask] at hfind
          obtain rfl : pos = p := Option.some.inj hfind
          simp only [Bool.not_eq_true] at hmask
          refine ⟨hp1, hp3, hmask, fun q hq1 hq2 hq3 => ?_⟩
          exact absurd hq3 (by simp [hp4 q hq1 hq2])
    · rw [if_neg hguard] at hfind
      simp at hfind

theorem findSymbolInLatex_no_backslash_eq_some {symbol latex : Str} {mask : List Bool} {p : ℕ}
    (hbs : symbol.contains '\\' = false)
    (hfind : findSymbolInLatex symbol latex mask = some p) :
    symbol.isPrefixOf (latex.drop p) = true ∧
      maskAny mask p (p + symbol.length) = false ∧
      ∀ q, q < p → symbol.isPrefixOf (latex.drop q) = true →
        maskAny mask q (q + symbol.length) = true := by
  rw [findSymbolInLatex, hbs] at hfind
  simp only [Bool.false_eq_true, if_false] at hfind
  obtain ⟨_, h2, h3, h4⟩ := findSymAux_eq_some _ 0 p hfind
  exact ⟨h2, h3, fun q hq => h4 q (Nat.zero_le q) hq⟩

/-! ### List plumbing lemmas -/

theorem filterMap_length_filter_isSome {α β : Type} (f : α → Option β) (l : List α) :
    (l.filterMap f).length = (l.filter (fun a => (f a).isSome)).length := by
  induction l with
  | nil => rfl
  | cons x xs ih =>
    cases hx : f x with
    | none => simp [List.filterMap_cons, List.filter_cons, hx, ih]
    | some b => simp [List.filterMap_cons, List.filter_cons, hx, ih]

theorem computeChildren_get? (groups : List MacroGroup) (i : ℕ) :
    (computeChildren groups).get? i =
      (groups.get? i).map (fun g => { g with children := childrenAt groups i }) := by
  rw [computeChildren, List.get?_map, List.enum, List.enumFrom_get?]
  cases groups.get? i <;> simp

theorem mem_computeChildren {groups : List MacroGroup} {g' : MacroGroup}
    (hmem : g' ∈ computeChildren groups) :
    ∃ i g, groups.get? i = some g ∧ g' = { g with children := childrenAt groups i } := by
  rw [computeChildren] at hmem
  obtain ⟨⟨i, g⟩, hp, rfl⟩ := List.mem_map.mp hmem
  exact ⟨i, g, List.mem_enum_iff_get?.mp hp, rfl⟩

theorem filterMap_get?_spec {α : Type} {l : List ℕ} {comps : List α}
    (hall : ∀ x ∈ l, x < comps.length) :
    (l.filterMap (fun i => comps.get? i)).length = l.length ∧
      ∀ k (hk : k < l.length),
        (l.filterMap (fun i => comps.get? i)).get? k = comps.get? (l.get ⟨k, hk⟩) := by
  induction l with
  | nil => exact ⟨rfl, fun k hk => absurd hk (by simp)⟩
  | cons x xs ih =>
    have hx : x < comps.length := hall x (List.mem_cons_self x xs)
    have ha : comps.get? x = some (comps.get ⟨x, hx⟩) := List.get?_eq_get hx
    obtain ⟨ih1, ih2⟩ := ih (fun y hy => hall y (List.mem_cons_of_mem x hy))
    constructor
    · rw [List.filterMap_cons, ha]
      dsimp only
      simp only [List.length_cons, ih1]
    · intro k hk
      match k with
      | 0 =>
        rw [List.filterMap_cons, ha]
        dsimp only
        rw [List.get?_cons_zero]
        exact ha.symm
      | k + 1 =>
        have hk' : k < xs.length := by simpa using hk
        rw [List.filterMap_cons, ha]
        dsimp only
        rw [List.get?_cons_succ, List.get_cons_succ]
        exact ih2 k hk'

theorem filterMap_get?_sublist {α : Type} :
    ∀ (l : List ℕ) (comps : List α) (s : ℕ), (∀ x ∈ l, s ≤ x) → l.Pairwise (· < ·) →
      (l.filterMap (fun i => comps.get? i)).Sublist (comps.drop s) := by
  intro l
  induction l with
  | nil => intro comps s _ _; simp
  | cons x xs ih =>
    intro comps s hge hpw
    have hx : s ≤ x := hge x (List.mem_cons_self x xs)
    have hxs : ∀ y ∈ xs, x + 1 ≤ y := fun y hy => (List.pairwise_cons.mp hpw).1 y hy
    have ihx : (xs.filterMap (fun i => comps.get? i)).Sublist (comps.drop (x + 1)) :=
      ih comps (x + 1) hxs (List.pairwise_cons.mp hpw).2
    have hdrop : (comps.drop (x + 1)).Sublist (comps.drop s) := by
      have : comps.drop (x + 1) = (comps.drop s).drop (x + 1 - s) := by
        rw [List.drop_drop]
        congr 1
        omega
      rw [this]
      exact List.drop_sublist _ _
    cases hget : comps.get? x with
    | none =>
      simp only [List.filterMap_cons, hget]
      exact ihx.trans hdrop
    | some a =>
      have hlt : x < comps.length := by
        by_contra hc
        rw [List.get?_eq_none.mpr (by omega)] at hget
        exact Option.noConfusion hget
      have hcons : comps.drop x = a :: comps.drop (x + 1) := by
        rw [List.drop_eq_get_cons hlt]
        congr 1
        have := List.get?_eq_get hlt
        rw [hget] at this
        exact (Option.some.inj this).symm
      have hdx : (comps.drop x).Sublist (comps.drop s) := by
        have : comps.drop x = (comps.drop s).drop (x - s) := by
          rw [List.drop_drop]; congr 1; omega
        rw [this]
        exact List.drop_sublist _ _
      simp only [List.filterMap_cons, hget]
      exact ((ihx.cons₂ a).trans (by rw [← hcons])).trans hdx

/-! ### Claim C1: span fidelity -/

/-- C1. Span fidelity: for every surviving semantic group produced by
`convertParseResponse`, slicing the narrative string by the group's
narrative span yields exactly the group's label (the counterpart text),
and for every (range, substring) pair in the group, slicing the markup
string by that range yields exactly the recorded substring. -/
theorem span_fidelity (r : TestParseResponse) :
    ∀ g ∈ (convertParseResponse r).groups,
      slice (convertParseResponse r).narrative g.narrative_span.1 g.narrative_span.2 = g.label ∧
      g.ranges.length = g.latex.length ∧
      ∀ pr ∈ g.ranges.zip g.latex, slice r.latex pr.1.1 pr.1.2 = pr.2 := by
  intro g hg
  have hg' : g ∈ computeChildren (r.components.filterMap (fun component =>
      match assignIndices component r.latex r.explanation (buildCommandMask r.latex) with
      | none => none
      | some indices =>
        some (MacroGroup.mk indices.ranges indices.latex_parts
          component.counterpart indices.narrative_span []))) := hg
  obtain ⟨i, g0, hget, rfl⟩ := mem_computeChildren hg'
  obtain ⟨comp, _, heq⟩ := List.mem_filterMap.mp (List.get?_mem hget)
  cases hassign : assignIndices comp r.latex r.explanation (buildCommandMask r.latex) with
  | none => rw [hassign] at heq; exact Option.noConfusion heq
  | some ind =>
    rw [hassign] at heq
    dsimp only at heq
    obtain rfl : MacroGroup.mk ind.ranges ind.latex_parts
        comp.counterpart ind.narrative_span [] = g0 := Option.some.inj heq
    rw [assignIndices] at hassign
    cases hfindcp : strFind r.explanation comp.counterpart with
    | none => rw [hfindcp] at hassign; exact Option.noConfusion hassign
    | some s =>
      rw [hfindcp] at hassign
      dsimp only at hassign
      set pairs : List ((ℕ × ℕ) × Str) := comp.symbol.filterMap (fun sym =>
        match findSymbolInLatex sym r.latex (buildCommandMask r.latex) with
        | none => none
        | some texStart =>
          some ((texStart, texStart + sym.length),
            slice r.latex texStart (texStart + sym.length))) with hpairs
      by_cases hnil : pairs = []
      · rw [if_pos hnil] at hassign; exact Option.noConfusion hassign
      · rw [if_neg hnil] at hassign
        obtain ⟨h1, h2, h3⟩ := (AssignResult.mk.injEq _ _ _ _ _ _).mp
          (Option.some.inj hassign)
        refine ⟨?_, ?_, ?_⟩
        · show slice r.explanation _ _ = comp.counterpart
          rw [← h1]
          exact strFind_slice hfindcp
        · show (_ : List (ℕ × ℕ)).length = _
          rw [← h2, ← h3]
          simp
        · intro pr hpr
          rw [← h2, ← h3, List.zip_map'] at hpr
          have hpr' : pr ∈ pairs := by
            simpa [Prod.mk.eta] using hpr
          obtain ⟨sym, _, hsym⟩ := List.mem_filterMap.mp hpr'
          cases hfs : findSymbolInLatex sym r.latex (buildCommandMask r.latex) with
          | none => rw [hfs] at hsym; exact Option.noConfusion hsym
          | some texStart =>
            rw [hfs] at hsym
            dsimp only at hsym
            obtain rfl := Option.some.inj hsym
            rfl

/-- A concrete run for the C1 witness: one component, symbol `a` in markup
`a+b`, counterpart equal to the whole narrative `ok`. -/
def c1r : TestParseResponse :=
  TestParseResponse.mk ['a', '+', 'b'] ['o', 'k']
    [ComponentBreakdown.mk [['a']] ['o', 'k'] []]

/-- The group produced by the C1 witness run. -/
def c1g : MacroGroup := MacroGroup.mk [(0, 1)] [['a']] ['o', 'k'] (0, 2) []

/-- Witness for C1 at the concrete run `c1r`. -/
theorem span_fidelity_witness :
    c1g ∈ (convertParseResponse c1r).groups ∧
      (slice (convertParseResponse c1r).narrative c1g.narrative_span.1 c1g.narrative_span.2 =
          c1g.label ∧
        c1g.ranges.length = c1g.latex.length ∧
        ∀ pr ∈ c1g.ranges.zip c1g.latex, slice c1r.latex pr.1.1 pr.1.2 = pr.2) :=
  ⟨by decide, span_fidelity c1r c1g (by decide)⟩

/-! ### Claim C2: hierarchy correctness -/

theorem mem_containsList {groups : List MacroGroup} {i j : ℕ} :
    j ∈ containsList groups i ↔
      j < groups.length ∧ j ≠ i ∧
        ∃ pr ∈ rangesAt groups i, ∃ cr ∈ rangesAt groups j, rangeContains pr cr = true := by
  simp only [containsList, containsPred, List.mem_filter, List.mem_range,
    Bool.and_eq_true, bne_iff_ne, List.any_eq_true, and_assoc]

theorem mem_childrenAt {groups : List MacroGroup} {i j : ℕ} :
    j ∈ childrenAt groups i ↔
      j ∈ containsList groups i ∧
        ∀ c ∈ containsList groups i, j ∉ containsList groups c := by
  simp only [childrenAt, List.mem_filter, Bool.not_eq_true', Bool.eq_false_iff]
  constructor
  · rintro ⟨h1, h2⟩
    refine ⟨h1, fun c hc hjc => h2 ?_⟩
    exact List.any_eq_true.mpr ⟨c, hc, List.elem_iff.mpr hjc⟩
  · rintro ⟨h1, h2⟩
    refine ⟨h1, fun hany => ?_⟩
    obtain ⟨c, hc, hjc⟩ := List.any_eq_true.mp hany
    exact h2 c hc (List.elem_iff.mp hjc)

/-- C2. Hierarchy correctness: a group `j` appears in group `i`'s child list
only if some markup span of `j` is strictly contained in some markup span of
`i` (strict containment: the parent starts no later, ends no earlier, and is
strictly longer, so equal ranges never count); and whenever `b` is a direct
child of `a` and `c` is a direct child of `b` in the output of
`_compute_children`, `c` does not appear in `a`'s child list. -/
theorem hierarchy_correctness (groups : List MacroGroup) :
    (∀ i j gi, (computeChildren groups).get? i = some gi → j ∈ gi.children →
      ∃ gj, (computeChildren groups).get? j = some gj ∧ j ≠ i ∧
        ∃ pr ∈ gi.ranges, ∃ cr ∈ gj.ranges,
          pr.1 ≤ cr.1 ∧ cr.2 ≤ pr.2 ∧
            (cr.2 : ℤ) - (cr.1 : ℤ) < (pr.2 : ℤ) - (pr.1 : ℤ)) ∧
    (∀ a b c ga gb, (computeChildren groups).get? a = some ga →
      (computeChildren groups).get? b = some gb →
      b ∈ ga.children → c ∈ gb.children → c ∉ ga.children) := by
  constructor
  · intro i j gi hgi hj
    rw [computeChildren_get?] at hgi
    obtain ⟨g, hget, rfl⟩ := Option.map_eq_some'.mp hgi
    have hj' : j ∈ childrenAt groups i := hj
    obtain ⟨hjc, _⟩ := mem_childrenAt.mp hj'
    obtain ⟨hjlt, hne, pr, hpr, cr, hcr, hcontain⟩ := mem_containsList.mp hjc
    have hgetj : groups.get? j = some (groups.get ⟨j, hjlt⟩) := List.get?_eq_get hjlt
    refine ⟨{ groups.get ⟨j, hjlt⟩ with children := childrenAt groups j }, ?_, hne, ?_⟩
    · rw [computeChildren_get?, hgetj]
      rfl
    · have hri : rangesAt groups i = g.ranges := by rw [rangesAt, hget]
      have hrj : rangesAt groups j = (groups.get ⟨j, hjlt⟩).ranges := by
        rw [rangesAt, hgetj]
      rw [hri] at hpr
      rw [hrj] at hcr
      simp only [rangeContains, Bool.and_eq_true, decide_eq_true_eq, gt_iff_lt] at hcontain
      exact ⟨pr, hpr, cr, hcr, hcontain.1.1, hcontain.1.2, hcontain.2⟩
  · intro a b c ga gb hga hgb hb hc hcontra
    rw [computeChildren_get?] at hga hgb
    obtain ⟨g1, _, rfl⟩ := Option.map_eq_some'.mp hga
    obtain ⟨g2, _, rfl⟩ := Option.map_eq_some'.mp hgb
    have hb' : b ∈ childrenAt groups a := hb
    have hc' : c ∈ childrenAt groups b := hc
    have hcontra' : c ∈ childrenAt groups a := hcontra
    obtain ⟨_, hmin⟩ := mem_childrenAt.mp hcontra'
    exact hmin b (mem_childrenAt.mp hb').1 (mem_childrenAt.mp hc').1

/-- Three nested groups for the C2 witness: spans (0,10) ⊃ (1,5) ⊃ (2,3). -/
def c2gs : List MacroGroup :=
  [MacroGroup.mk [(0, 10)] [] [] (0, 0) [],
   MacroGroup.mk [(1, 5)] [] [] (0, 0) [],
   MacroGroup.mk [(2, 3)] [] [] (0, 0) []]

/-- Witness for C2 on `c2gs`: group 1 is a direct child of group 0 with a
strictly contained span, and the grandchild 2 is excluded from group 0's
child list. -/
theorem hierarchy_correctness_witness :
    (∃ gj, (computeChildren c2gs).get? 1 = some gj ∧ (1 : ℕ) ≠ 0 ∧
      ∃ pr ∈ (MacroGroup.mk [(0, 10)] [] [] (0, 0) [1]).ranges, ∃ cr ∈ gj.ranges,
        pr.1 ≤ cr.1 ∧ cr.2 ≤ pr.2 ∧
          (cr.2 : ℤ) - (cr.1 : ℤ) < (pr.2 : ℤ) - (pr.1 : ℤ)) ∧
    (2 : ℕ) ∉ (MacroGroup.mk [(0, 10)] [] [] (0, 0) [1]).children :=
  ⟨(hierarchy_correctness c2gs).1 0 1 (MacroGroup.mk [(0, 10)] [] [] (0, 0) [1])
      (by decide) (by decide),
   (hierarchy_correctness c2gs).2 0 1 2 (MacroGroup.mk [(0, 10)] [] [] (0, 0) [1])
      (MacroGroup.mk [(1, 5)] [] [] (0, 0) [2]) (by decide) (by decide)
      (by decide) (by decide)⟩

/-! ### Claim C3: mask-aware symbol location -/

/-- The markup string of the claim's example: a backslash, `mathrm`, then
`m` wrapped in braces, then `^` and `m` wrapped in braces. -/
def mathrmExample : Str :=
  ['\\', 'm', 'a', 't', 'h', 'r', 'm', lbrace, 'm', rbrace, '^', lbrace, 'm', rbrace]

/-- C3 counterexample. On the claim's own example the code returns
position 8 — the `m` inside the brace group of the command argument — not
position 12, the standalone `m` inside the trailing exponent group, which
is what the claim asserts.  (Position 8 is outside the command-name run,
which covers only positions 0–6, so the first unmasked occurrence is the
brace-group argument, not the exponent.) -/
theorem find_symbol_counterexample :
    findSymbolInLatex ['m'] mathrmExample (buildCommandMask mathrmExample) = some 8 ∧
      mathrmExample.get? 12 = some 'm' ∧
      slice mathrmExample 10 14 = ['^', lbrace, 'm', rbrace] ∧
      slice mathrmExample 7 10 = [lbrace, 'm', rbrace] ∧
      (8 : ℕ) ≠ 12 := by
  refine ⟨by decide, by decide, by decide, by decide, by decide⟩

/-- C3 (amended). Mask-aware symbol location: a symbol containing a
backslash is searched plainly, ignoring the command mask; otherwise the
function returns the leftmost occurrence whose entire matched range lies
outside command-name positions, skipping every candidate fully or
partially inside a command-name run; on the example markup of the claim,
locating `m` returns position 8 — the first occurrence outside the
command-name run (the brace-group argument of the command), not the `m`
inside the trailing exponent group. -/
theorem find_symbol_masked (symbol latex : Str) (mask : List Bool) :
    (symbol.contains '\\' = true →
      findSymbolInLatex symbol latex mask = strFind latex symbol) ∧
    (symbol.contains '\\' = false → ∀ p, findSymbolInLatex symbol latex mask = some p →
      symbol.isPrefixOf (latex.drop p) = true ∧
        maskAny mask p (p + symbol.length) = false ∧
        ∀ q, q < p → symbol.isPrefixOf (latex.drop q) = true →
          maskAny mask q (q + symbol.length) = true) ∧
    findSymbolInLatex ['m'] mathrmExample (buildCommandMask mathrmExample) = some 8 := by
  refine ⟨fun hbs => ?_, fun hbs p hp => ?_, by decide⟩
  · rw [findSymbolInLatex, if_pos hbs]
  · exact findSymbolInLatex_no_backslash_eq_some hbs hp

/-- Witness for C3 at concrete inputs: the backslash branch on a symbol
that is itself a command, and the masked branch at the example markup. -/
theorem find_symbol_masked_witness :
    ((['\\', 'f'].contains '\\' = true) ∧
      findSymbolInLatex ['\\', 'f'] ['\\', 'f'] (buildCommandMask ['\\', 'f']) =
        strFind ['\\', 'f'] ['\\', 'f']) ∧
    ((['m'].contains '\\' = false) ∧
      (['m'].isPrefixOf (mathrmExample.drop 8) = true ∧
        maskAny (buildCommandMask mathrmExample) 8 (8 + ['m'].length) = false ∧
        ∀ q, q < 8 → ['m'].isPrefixOf (mathrmExample.drop q) = true →
          maskAny (buildCommandMask mathrmExample) q (q + ['m'].length) = true)) :=
  ⟨⟨by decide, (find_symbol_masked ['\\', 'f'] ['\\', 'f'] (buildCommandMask ['\\', 'f'])).1
      (by decide)⟩,
   ⟨by decide, (find_symbol_masked ['m'] mathrmExample (buildCommandMask mathrmExample)).2.1
      (by decide) 8 (by decide)⟩⟩

/-! ### Claim C4: normalizer merge/dedup -/

/-- Scenario component: symbol `s_1^2`, counterpart `their individual spreads`. -/
def c4a : RawComp := RawComp.mk "s_1^2".toList "their individual spreads".toList []

/-- Scenario component: symbol `s_2^2`, same counterpart. -/
def c4b : RawComp := RawComp.mk "s_2^2".toList "their individual spreads".toList []

/-- C4 counterexample. `merge_fragmented_components` performs no
counterpart-based merging: two components with an identical (already
trimmed) counterpart pass through unchanged, so two surviving components
share a counterpart string, contradicting the claimed merge/dedup. -/
theorem merge_no_merge_counterexample :
    mergeFragmentedComponents [c4a, c4b] [] = [c4a, c4b] ∧
      c4a.counterpart = c4b.counterpart ∧ c4a ≠ c4b ∧
      ((mergeFragmentedComponents [c4a, c4b] []).filter
        (fun c => c.counterpart == c4a.counterpart)).length = 2 := by
  refine ⟨by decide, by decide, by decide, by decide⟩

/-- C4 (amended). The normalizer performs no merging at all: its output is
a subsequence of its input in which every surviving component is passed
through unchanged (components are only ever dropped, by the glue pass), so
components sharing an identical trimmed counterpart are not combined and
duplicate counterparts may survive. -/
theorem merge_is_sublist (comps : List RawComp) (lt : Str) :
    (mergeFragmentedComponents comps lt).Sublist comps := by
  rw [mergeFragmentedComponents]
  by_cases h : comps.length < 2
  · rw [if_pos h]
  · rw [if_neg h]
    have hsub := filterMap_get?_sublist (survivorIdx comps) comps 0
      (fun x _ => Nat.zero_le x)
      ((List.pairwise_lt_range comps.length).filter (fun i => ! glueDropped comps i))
    simpa using hsub

/-! ### Claim C5: empty-result outcome -/

/-- A run whose only component has an unlocatable counterpart. -/
def c5r : TestParseResponse :=
  TestParseResponse.mk ['x'] ['h', 'i'] [ComponentBreakdown.mk [['x']] ['z'] []]

/-- The same run with no components at all. -/
def c5rEmpty : TestParseResponse := TestParseResponse.mk ['x'] ['h', 'i'] []

/-- C5 counterexample. When every component is dropped the engine returns a
plain `MacroMap` with an empty group list — indistinguishable from the
result of a run that had no components to begin with — rather than any
explicit "no components" terminal outcome. -/
theorem empty_result_counterexample :
    convertParseResponse c5r = MacroMap.mk [] ['h', 'i'] ∧
      convertParseResponse c5r = convertParseResponse c5rEmpty := by
  refine ⟨by decide, by decide⟩

/-- C5 (amended). When every component of a run is dropped during
alignment, `convertParseResponse` returns an ordinary `MacroMap` whose
group list is empty and whose narrative is the explanation; no
distinguishable "no components" outcome is produced. -/
theorem empty_result_macromap (r : TestParseResponse)
    (h : ∀ comp ∈ r.components,
      assignIndices comp r.latex r.explanation (buildCommandMask r.latex) = none) :
    convertParseResponse r = MacroMap.mk [] r.explanation := by
  show MacroMap.mk (computeChildren (r.components.filterMap (fun component =>
    match assignIndices component r.latex r.explanation (buildCommandMask r.latex) with
    | none => none
    | some indices =>
      some (MacroGroup.mk indices.ranges indices.latex_parts
        component.counterpart indices.narrative_span [])))) r.explanation =
    MacroMap.mk [] r.explanation
  have hnil : r.components.filterMap (fun component =>
      match assignIndices component r.latex r.explanation (buildCommandMask r.latex) with
      | none => none
      | some indices =>
        some (MacroGroup.mk indices.ranges indices.latex_parts
          component.counterpart indices.narrative_span [])) = [] := by
    rw [List.filterMap_eq_nil]
    intro comp hcomp
    rw [h comp hcomp]
  rw [hnil]
  rfl

/-- Witness for C5 at the concrete run `c5r`. -/
theorem empty_result_macromap_witness :
    (∀ comp ∈ c5r.components,
      assignIndices comp c5r.latex c5r.explanation (buildCommandMask c5r.latex) = none) ∧
      convertParseResponse c5r = MacroMap.mk [] c5r.explanation :=
  ⟨by decide, empty_result_macromap c5r (by decide)⟩

/-! ### Claim C6: glue suppression -/

/-- A glue component: symbol `-`, counterpart `minus`. -/
def c6glue : RawComp := RawComp.mk ['-'] "minus".toList []

/-- A non-glue component whose symbol contains `-`. -/
def c6p : RawComp := RawComp.mk "a-b".toList ['r'] []

/-- C6 counterexample. Two identical glue components are both removed, even
though afterwards no *surviving* component contains their symbol: the code
compares each glue component against every *other input* component,
surviving or not, so the claimed "removed iff contained in a surviving
component" biconditional fails. -/
theorem glue_suppression_counterexample :
    mergeFragmentedComponents [c6glue, c6glue] [] = [] ∧
      ¬ ∃ other ∈ mergeFragmentedComponents [c6glue, c6glue] [],
          pyIn (pyStrip c6glue.symbol) other.symbol = true := by
  refine ⟨by decide, by decide⟩

/-- C6 (amended). Glue suppression: the pass leaves the list unchanged when
fewer than two components are present; otherwise a component survives iff
it is not syntactic glue whose stripped symbol occurs as a literal
substring of some *other input* component's symbol text (whether or not
that other component itself survives), and the output consists of the
surviving components in order. -/
theorem glue_suppression (comps : List RawComp) (lt : Str) :
    (comps.length < 2 → mergeFragmentedComponents comps lt = comps) ∧
    (∀ i c, comps.get? i = some c →
      (i ∈ survivorIdx comps ↔
        ¬(isSyntacticGlue c.symbol = true ∧
          ∃ j d, j ≠ i ∧ comps.get? j = some d ∧
            pyIn (pyStrip c.symbol) d.symbol = true))) ∧
    (2 ≤ comps.length →
      mergeFragmentedComponents comps lt =
        (survivorIdx comps).filterMap (fun i => comps.get? i)) := by
  refine ⟨fun h => by rw [mergeFragmentedComponents, if_pos h], ?_,
    fun h => by rw [mergeFragmentedComponents, if_neg (by omega)]⟩
  intro i c hc
  have hi : i < comps.length := by
    by_contra hcon
    rw [List.get?_len_le (by omega)] at hc
    exact Option.noConfusion hc
  rw [survivorIdx, List.mem_filter]
  simp only [List.mem_range, hi, true_and, Bool.not_eq_true', Bool.eq_false_iff]
  constructor
  · intro hfalse ⟨hglue, j, d, hji, hjd, hin⟩
    apply hfalse
    rw [glueDropped, hc]
    dsimp only
    refine (Bool.and_eq_true _ _).mpr ⟨hglue, List.any_eq_true.mpr ?_⟩
    have hj : j < comps.length := by
      by_contra hcon
      rw [List.get?_len_le (by omega)] at hjd
      exact Option.noConfusion hjd
    refine ⟨j, List.mem_range.mpr hj, ?_⟩
    rw [hjd]
    exact (Bool.and_eq_true _ _).mpr ⟨bne_iff_ne.mpr hji, hin⟩
  · intro hnot htrue
    apply hnot
    rw [glueDropped, hc] at htrue
    dsimp only at htrue
    obtain ⟨hglue, hany⟩ := (Bool.and_eq_true _ _).mp htrue
    obtain ⟨j, _, hj⟩ := List.any_eq_true.mp hany
    obtain ⟨hjne, hmatch⟩ := (Bool.and_eq_true _ _).mp hj
    cases hjd : comps.get? j with
    | none => rw [hjd] at hmatch; exact Bool.noConfusion hmatch
    | some d =>
      rw [hjd] at hmatch
      exact ⟨hglue, j, d, bne_iff_ne.mp hjne, hjd, hmatch⟩

/-- Witness for C6: the glue component `-` next to `a-b` is dropped, and the
characterization instantiates at index 0. -/
theorem glue_suppression_witness :
    ([c6glue, c6p].get? 0 = some c6glue) ∧
      ((0 : ℕ) ∈ survivorIdx [c6glue, c6p] ↔
        ¬(isSyntacticGlue c6glue.symbol = true ∧
          ∃ j d, j ≠ 0 ∧ [c6glue, c6p].get? j = some d ∧
            pyIn (pyStrip c6glue.symbol) d.symbol = true)) :=
  ⟨rfl, (glue_suppression [c6glue, c6p] []).2.1 0 c6glue rfl⟩

/-! ### Claim C7: recoverable drop semantics -/

/-- C7. Recoverable drop semantics: a component whose counterpart is not a
literal substring of the narrative is dropped (no exception is modelled —
`assignIndices` is total and returns `none`), the surviving components
each contribute exactly one group; symbols that are not located are
skipped at symbol granularity, the whole component is dropped exactly when
the counterpart fails or every symbol fails, and a surviving component is
fully populated (spans and substrings aligned, at least one span). -/
theorem recoverable_drop (r : TestParseResponse) (comp : ComponentBreakdown)
    (hmem : comp ∈ r.components) :
    ((convertParseResponse r).groups.length =
      (r.components.filter (fun c =>
        (assignIndices c r.latex r.explanation (buildCommandMask r.latex)).isSome)).length) ∧
    ((assignIndices comp r.latex r.explanation (buildCommandMask r.latex) = none) ↔
      (strFind r.explanation comp.counterpart = none ∨
        ∀ sym ∈ comp.symbol,
          findSymbolInLatex sym r.latex (buildCommandMask r.latex) = none)) ∧
    (∀ res, assignIndices comp r.latex r.explanation (buildCommandMask r.latex) = some res →
      res.ranges.length =
        (comp.symbol.filter (fun s =>
          (findSymbolInLatex s r.latex (buildCommandMask r.latex)).isSome)).length ∧
      res.latex_parts.length = res.ranges.length ∧
      res.ranges ≠ []) := by
  refine ⟨?_, ?_, ?_⟩
  · show (computeChildren (r.components.filterMap (fun component =>
      match assignIndices component r.latex r.explanation (buildCommandMask r.latex) with
      | none => none
      | some indices =>
        some (MacroGroup.mk indices.ranges indices.latex_parts
          component.counterpart indices.narrative_span [])))).length = _
    rw [computeChildren, List.length_map, List.enum_length,
      filterMap_length_filter_isSome]
    congr 1
    apply List.filter_congr
    intro c _
    cases assignIndices c r.latex r.explanation (buildCommandMask r.latex) <;> rfl
  · rw [assignIndices]
    cases hcp : strFind r.explanation comp.counterpart with
    | none => simp
    | some s =>
      dsimp only
      constructor
      · intro hnone
        right
        by_cases hnil : comp.symbol.filterMap (fun sym =>
            match findSymbolInLatex sym r.latex (buildCommandMask r.latex) with
            | none => none
            | some texStart =>
              some ((texStart, texStart + sym.length),
                slice r.latex texStart (texStart + sym.length))) = []
        · intro sym hsym
          have := List.filterMap_eq_nil.mp hnil sym hsym
          cases hfs : findSymbolInLatex sym r.latex (buildCommandMask r.latex) with
          | none => rfl
          | some t => rw [hfs] at this; exact Option.noConfusion this
        · rw [if_neg hnil] at hnone
          exact Option.noConfusion hnone
      · rintro (habs | hall)
        · exact Option.noConfusion habs
        · rw [if_pos ?_]
          rw [List.filterMap_eq_nil]
          intro sym hsym
          rw [hall sym hsym]
  · intro res hres
    rw [assignIndices] at hres
    cases hcp : strFind r.explanation comp.counterpart with
    | none => rw [hcp] at hres; exact Option.noConfusion hres
    | some s =>
      rw [hcp] at hres
      dsimp only at hres
      set pairs := comp.symbol.filterMap (fun sym =>
        match findSymbolInLatex sym r.latex (buildCommandMask r.latex) with
        | none => none
        | some texStart =>
          some ((texStart, texStart + sym.length),
            slice r.latex texStart (texStart + sym.length))) with hpairs
      by_cases hnil : pairs = []
      · rw [if_pos hnil] at hres
        exact Option.noConfusion hres
      · rw [if_neg hnil] at hres
        obtain rfl := (Option.some.inj hres).symm
        refine ⟨?_, by simp, ?_⟩
        · show (pairs.map Prod.fst).length = _
          rw [List.length_map, hpairs, filterMap_length_filter_isSome]
          congr 1
          apply List.filter_congr
          intro sym _
          cases findSymbolInLatex sym r.latex (buildCommandMask r.latex) <;> rfl
        · show pairs.map Prod.fst ≠ []
          simpa using hnil

/-- The bad component of the C7 witness run (counterpart `z` missing from
the narrative `ok`). -/
def c7bad : ComponentBreakdown := ComponentBreakdown.mk [['o']] ['z'] []

/-- The C7 witness run: the bad component is dropped, the good one (whole
narrative as counterpart, symbol `o`) survives. -/
def c7r : TestParseResponse :=
  TestParseResponse.mk ['o'] ['o', 'k']
    [c7bad, ComponentBreakdown.mk [['o']] ['o', 'k'] []]

/-- Witness for C7 at the concrete run `c7r` and component `c7bad`. -/
theorem recoverable_drop_witness :
    c7bad ∈ c7r.components ∧
      (((convertParseResponse c7r).groups.length =
        (c7r.components.filter (fun c =>
          (assignIndices c c7r.latex c7r.explanation
            (buildCommandMask c7r.latex)).isSome)).length) ∧
      ((assignIndices c7bad c7r.latex c7r.explanation (buildCommandMask c7r.latex) = none) ↔
        (strFind c7r.explanation c7bad.counterpart = none ∨
          ∀ sym ∈ c7bad.symbol,
            findSymbolInLatex sym c7r.latex (buildCommandMask c7r.latex) = none)) ∧
      (∀ res, assignIndices c7bad c7r.latex c7r.explanation
          (buildCommandMask c7r.latex) = some res →
        res.ranges.length =
          (c7bad.symbol.filter (fun s =>
            (findSymbolInLatex s c7r.latex (buildCommandMask c7r.latex)).isSome)).length ∧
        res.latex_parts.length = res.ranges.length ∧
        res.ranges ≠ [])) :=
  ⟨by decide, recoverable_drop c7r c7bad (by decide)⟩

/-! ### Claim C8: command-mask construction -/

/-- C8 counterexample. A trailing lone backslash is *not* masked: the
command pattern requires at least one letter after the backslash, so on
`a\` the mask is `[false, false]`, not `[false, true]` as the claim
("masked up to the string end") requires. -/
theorem command_mask_counterexample :
    buildCommandMask ['a', '\\'] = [false, false] ∧
      buildCommandMask ['a', '\\'] ≠ [false, true] := by
  refine ⟨by decide, by decide⟩

/-- C8 (amended). `_build_command_mask` returns a mask of exactly the
input's length, and a trailing lone backslash at the end of the string is
processed without error but left unmasked (`false`), because the command
pattern needs at least one letter or `@` after the backslash. -/
theorem command_mask_length_trailing (latex : Str) :
    (buildCommandMask latex).length = latex.length ∧
    (latex.get? (latex.length - 1) = some '\\' →
      (buildCommandMask latex).get? (latex.length - 1) = some false) := by
  constructor
  · simp [buildCommandMask]
  · intro h
    have hpos : 0 < latex.length := by
      by_contra hcon
      rw [List.get?_len_le (by omega)] at h
      exact Option.noConfusion h
    have hlt : latex.length - 1 < latex.length := by omega
    rw [buildCommandMask, List.get?_map, List.get?_range hlt]
    dsimp only [Option.map_some']
    congr 1
    by_contra hcon
    have htrue : maskAtB latex (latex.length - 1) = true := by
      cases hval : maskAtB latex (latex.length - 1) with
      | false => exact absurd hval hcon
      | true => rfl
    obtain ⟨b, hbmem, hb⟩ := List.any_eq_true.mp htrue
    have hble : b ≤ latex.length - 1 := by
      have := List.mem_range.mp hbmem
      omega
    obtain ⟨hab, hall⟩ := (Bool.and_eq_true _ _).mp hb
    obtain ⟨hbs, hnext⟩ := (Bool.and_eq_true _ _).mp hab
    rcases Nat.eq_or_lt_of_le hble with heq | hblt
    · rw [heq] at hnext
      have hnone : latex.get? (latex.length - 1 + 1) = none :=
        List.get?_len_le (by omega)
      rw [hnone] at hnext
      exact Bool.noConfusion hnext
    · have hmem : latex.length - 1 ∈ List.range' (b + 1) (latex.length - 1 - b) :=
        List.mem_range'_1.mpr ⟨by omega, by omega⟩
      have := List.all_eq_true.mp hall _ hmem
      rw [h] at this
      exact absurd this (by decide)

/-- Witness for C8 at the concrete markup `a\`. -/
theorem command_mask_witness :
    (['a', '\\'].get? (['a', '\\'].length - 1) = some '\\') ∧
      (buildCommandMask ['a', '\\']).get? (['a', '\\'].length - 1) = some false :=
  ⟨by decide, (command_mask_length_trailing ['a', '\\']).2 (by decide)⟩

/-! ### Claim C9: normalizer idempotence -/

theorem survivorIdx_all_lt (comps : List RawComp) :
    ∀ x ∈ survivorIdx comps, x < comps.length := fun x hx =>
  List.mem_range.mp (List.mem_filter.mp hx).1

theorem survivorIdx_nodup (comps : List RawComp) : (survivorIdx comps).Nodup :=
  (List.nodup_range _).filter _

/-- C9. Normalizer idempotence: applying `merge_fragmented_components` (with
the same markup string) to its own output returns that output unchanged —
no further drops occur on the second run. -/
theorem merge_idempotent (comps : List RawComp) (lt : Str) :
    mergeFragmentedComponents (mergeFragmentedComponents comps lt) lt =
      mergeFragmentedComponents comps lt := by
  by_cases h2 : comps.length < 2
  · have hm : mergeFragmentedComponents comps lt = comps := by
      rw [mergeFragmentedComponents, if_pos h2]
    rw [hm]
    exact hm
  · set out := mergeFragmentedComponents comps lt with hout_def
    have hout : out = (survivorIdx comps).filterMap (fun i => comps.get? i) := by
      rw [hout_def, mergeFragmentedComponents, if_neg h2]
    obtain ⟨hlen, hget⟩ := filterMap_get?_spec (survivorIdx_all_lt comps)
    have houtlen : out.length = (survivorIdx comps).length := by rw [hout, hlen]
    by_cases ho2 : out.length < 2
    · rw [mergeFragmentedComponents, if_pos ho2]
    · have hkey : ∀ i, i < out.length → glueDropped out i = false := by
        intro i hi
        have hi' : i < (survivorIdx comps).length := by omega
        have ho_mem : (survivorIdx comps).get ⟨i, hi'⟩ ∈ survivorIdx comps :=
          List.get_mem _ _ _
        have ho_surv : glueDropped comps ((survivorIdx comps).get ⟨i, hi'⟩) = false := by
          have hmf := (List.mem_filter.mp ho_mem).2
          simpa using hmf
        have hget_i : out.get? i = comps.get? ((survivorIdx comps).get ⟨i, hi'⟩) := by
          rw [hout]
          exact hget i hi'
        by_contra hcon
        have htrue : glueDropped out i = true := by
          cases hval : glueDropped out i with
          | false => exact absurd hval hcon
          | true => rfl
        rw [glueDropped] at htrue
        cases hoc : out.get? i with
        | none => rw [hoc] at htrue; exact Bool.noConfusion htrue
        | some c =>
          rw [hoc] at htrue
          dsimp only at htrue
          obtain ⟨hglue, hany⟩ := (Bool.and_eq_true _ _).mp htrue
          obtain ⟨j, hjmem, hj⟩ := List.any_eq_true.mp hany
          obtain ⟨hjne, hmatch⟩ := (Bool.and_eq_true _ _).mp hj
          have hjlt : j < out.length := List.mem_range.mp hjmem
          cases hod : out.get? j with
          | none => rw [hod] at hmatch; exact Bool.noConfusion hmatch
          | some d =>
            rw [hod] at hmatch
            have hj' : j < (survivorIdx comps).length := by omega
            have hget_j : out.get? j = comps.get? ((survivorIdx comps).get ⟨j, hj'⟩) := by
              rw [hout]
              exact hget j hj'
            have hne_oj : (survivorIdx comps).get ⟨j, hj'⟩ ≠
                (survivorIdx comps).get ⟨i, hi'⟩ := by
              intro heq
              have hinj := List.nodup_iff_injective_get.mp (survivorIdx_nodup comps)
              have hfin := hinj heq
              have hji : j = i := by simpa using hfin
              exact bne_iff_ne.mp hjne hji
            have hdropped : glueDropped comps ((survivorIdx comps).get ⟨i, hi'⟩) = true := by
              rw [glueDropped, hget_i.symm.trans hoc]
              dsimp only
              refine (Bool.and_eq_true _ _).mpr ⟨hglue, List.any_eq_true.mpr
                ⟨(survivorIdx comps).get ⟨j, hj'⟩,
                  List.mem_range.mpr (survivorIdx_all_lt comps _ (List.get_mem _ _ _)), ?_⟩⟩
              refine (Bool.and_eq_true _ _).mpr ⟨bne_iff_ne.mpr hne_oj, ?_⟩
              rw [hget_j.symm.trans hod]
              exact hmatch
            rw [hdropped] at ho_surv
            exact Bool.noConfusion ho_surv
      have hsurv : survivorIdx out = List.range out.length := by
        rw [survivorIdx]
        apply List.filter_eq_self.mpr
        intro i hi
        rw [hkey i (List.mem_range.mp hi)]
        rfl
      have hfinal : (List.range out.length).filterMap (fun i => out.get? i) = out := by
        obtain ⟨hlen2, hget2⟩ := @filterMap_get?_spec RawComp (List.range out.length) out
          (fun x hx => List.mem_range.mp hx)
        apply List.ext
        intro n
        by_cases hn : n < out.length
        · have hn' : n < (List.range out.length).length := by simpa using hn
          rw [hget2 n hn', List.get_range]
        · rw [List.get?_len_le (by rw [hlen2]; simpa using Nat.le_of_not_lt hn),
            List.get?_len_le (Nat.le_of_not_lt hn)]
      rw [mergeFragmentedComponents, if_neg ho2, hsurv, hfinal]

/-! ### Claim C10: empty-counterpart edge case -/

/-- A run whose only component has an empty counterpart and a locatable
symbol `a` (markup `a`, narrative `hi`). -/
def c10r : TestParseResponse :=
  TestParseResponse.mk ['a'] ['h', 'i'] [ComponentBreakdown.mk [['a']] [] []]

/-- C10. Empty-counterpart edge case: a component whose counterpart is the
empty string is never dropped for an unlocatable phrase — the empty string
is found at position 0, so the component is dropped only if every symbol
fails, it is anchored at narrative span (0, 0) whenever it survives, and
on the concrete run `c10r` it surfaces in the output as a group with an
empty label. -/
theorem empty_counterpart (comp : ComponentBreakdown) (latex explanation : Str)
    (mask : List Bool) (h : comp.counterpart = []) :
    ((assignIndices comp latex explanation mask = none) ↔
      ∀ sym ∈ comp.symbol, findSymbolInLatex sym latex mask = none) ∧
    (∀ res, assignIndices comp latex explanation mask = some res →
      res.narrative_span = (0, 0)) ∧
    (∃ g ∈ (convertParseResponse c10r).groups,
      g.label = [] ∧ g.narrative_span = (0, 0)) := by
  have hassign : assignIndices comp latex explanation mask =
      (if comp.symbol.filterMap (fun sym =>
          match findSymbolInLatex sym latex mask with
          | none => none
          | some texStart =>
            some ((texStart, texStart + sym.length),
              slice latex texStart (texStart + sym.length))) = [] then none
        else some (AssignResult.mk (0, 0)
          ((comp.symbol.filterMap (fun sym =>
            match findSymbolInLatex sym latex mask with
            | none => none
            | some texStart =>
              some ((texStart, texStart + sym.length),
                slice latex texStart (texStart + sym.length)))).map Prod.fst)
          ((comp.symbol.filterMap (fun sym =>
            match findSymbolInLatex sym latex mask with
            | none => none
            | some texStart =>
              some ((texStart, texStart + sym.length),
                slice latex texStart (texStart + sym.length)))).map Prod.snd))) := by
    rw [assignIndices, h, strFind_nil explanation]
    rfl
  refine ⟨?_, ?_, ?_⟩
  · rw [hassign]
    by_cases hnil : comp.symbol.filterMap (fun sym =>
        match findSymbolInLatex sym latex mask with
        | none => none
        | some texStart =>
          some ((texStart, texStart + sym.length),
            slice latex texStart (texStart + sym.length))) = []
    · rw [if_pos hnil]
      constructor
      · intro _ sym hsym
        have hn := List.filterMap_eq_nil.mp hnil sym hsym
        cases hfs : findSymbolInLatex sym latex mask with
        | none => rfl
        | some t => rw [hfs] at hn; exact Option.noConfusion hn
      · intro _
        rfl
    · rw [if_neg hnil]
      constructor
      · intro habs
        exact Option.noConfusion habs
      · intro hall
        exfalso
        apply hnil
        rw [List.filterMap_eq_nil]
        intro sym hsym
        rw [hall sym hsym]
  · intro res hres
    rw [hassign] at hres
    by_cases hnil : comp.symbol.filterMap (fun sym =>
        match findSymbolInLatex sym latex mask with
        | none => none
        | some texStart =>
          some ((texStart, texStart + sym.length),
            slice latex texStart (texStart + sym.length))) = []
    · rw [if_pos hnil] at hres
      exact Option.noConfusion hres
    · rw [if_neg hnil] at hres
      obtain rfl := (Option.some.inj hres).symm
      rfl
  · exact ⟨MacroGroup.mk [(0, 1)] [['a']] [] (0, 0) [], by decide, by decide, by decide⟩

/-- Witness for C10 at the concrete component of `c10r`. -/
theorem empty_counterpart_witness :
    (ComponentBreakdown.mk [['a']] [] []).counterpart = [] ∧
      (((assignIndices (ComponentBreakdown.mk [['a']] [] []) ['a'] ['h', 'i']
            (buildCommandMask ['a']) = none) ↔
        ∀ sym ∈ (ComponentBreakdown.mk [['a']] [] []).symbol,
          findSymbolInLatex sym ['a'] (buildCommandMask ['a']) = none) ∧
      (∀ res, assignIndices (ComponentBreakdown.mk [['a']] [] []) ['a'] ['h', 'i']
          (buildCommandMask ['a']) = some res → res.narrative_span = (0, 0)) ∧
      (∃ g ∈ (convertParseResponse c10r).groups,
        g.label = [] ∧ g.narrative_span = (0, 0))) :=
  ⟨rfl, empty_counterpart (ComponentBreakdown.mk [['a']] [] []) ['a'] ['h', 'i']
    (buildCommandMask ['a']) rfl⟩

end Fivify
